import Mathlib

/-!
Verification of the moviemodel repository (feature encoding, label binning,
and the regression serving path) against its natural-language specification.

The Python sources are shallowly embedded:
* `backend/transformers.py` (`GenresBinarizer`): `pyStrip`, `pySplit`,
  `parseTags`, `idxMap`, `transformRow`, `transformOpt`, `fitClasses`;
* `backend/train_model_reg.py` (`make_bins`): `assignFixed` (np.digitize on the
  interior edges), `quantileEdges`/`qcutCode` (pd.qcut with linear-interpolation
  quantiles and right-closed intervals), `fmt1` label rendering, `makeBins`;
* `backend/server_reg.py` (`/predict`): `joinGenres`, `buildRow`,
  `servedScore`, `servedConfidence`, `predictHandler`.

Numbers are modelled by `ℚ` (exact arithmetic in place of IEEE floats) and
fallible code by `Option`/`Except`.
-/

namespace MovieModel

/-! ### Python string primitives

`pyStrip` models Python's `str.strip()` (drop leading and trailing whitespace),
`pySplit` models `str.split("|")` (plain separator split, keeping empty pieces,
`"".split("|") == [""]`), and `pyJoin` models `sep.join(...)`.  They are defined
on character lists by structural recursion so that concrete instances reduce.
-/

def isWS (c : Char) : Bool := c.isWhitespace

def stripChars (l : List Char) : List Char :=
  ((l.dropWhile isWS).reverse.dropWhile isWS).reverse

def pyStrip (s : String) : String := String.mk (stripChars s.data)

def splitOnChar (sep : Char) : List Char → List (List Char)
  | [] => [[]]
  | c :: t =>
    let r := splitOnChar sep t
    if c = sep then [] :: r
    else
      match r with
      | [] => [[c]]
      | h :: t' => (c :: h) :: t'

def pySplit (s : String) : List String := (splitOnChar '|' s.data).map String.mk

def pyJoin (sep : String) : List String → String
  | [] => ""
  | [x] => x
  | x :: y :: t => x ++ sep ++ pyJoin sep (y :: t)

/-! ### GenresBinarizer (backend/transformers.py)

`transform` splits a row on `"|"`, strips each piece and keeps the non-empty
ones (`[x.strip() for x in xs if x and x.strip()]`), then sets position `i`
of a zero vector to `1.0` for every tag found in
`idx_map = {g: i for i, g in enumerate(self.classes_)}`.  A Python dict
comprehension keeps the *last* index of a duplicated key, which `idxMap`
reproduces.  A missing (NaN) cell is `fillna`-ed to `""` upstream, so rows are
plain strings here.
-/

def parseTags (row : String) : List String :=
  ((pySplit row).filter (fun x => x != "" && pyStrip x != "")).map pyStrip

def idxMap : List String → String → Option Nat
  | [], _ => none
  | c :: cs, g =>
    match idxMap cs g with
    | some j => some (j + 1)
    | none => if c = g then some 0 else none

def transformRow (classes : List String) (row : String) : List ℚ :=
  (List.range classes.length).map
    (fun i => if (parseTags row).any (fun g => idxMap classes g == some i) then 1 else 0)

/-- `GenresBinarizer.transform`: raises `RuntimeError` when `classes_ is None`,
otherwise returns one multi-hot row per input row. -/
def transformOpt (classes : Option (List String)) (rows : List String) :
    Except String (List (List ℚ)) :=
  match classes with
  | none => Except.error "GenresBinarizer is not fitted."
  | some cs => Except.ok (rows.map (transformRow cs))

/-- The `transform` method as a state transformer: the Python method body never
assigns to `self.classes_`, so the state component is returned unchanged. -/
def transformMethod (classes : Option (List String)) (rows : List String) :
    Option (List String) × Except String (List (List ℚ)) :=
  (classes, transformOpt classes rows)

/-- `GenresBinarizer.fit`: explode the pipe-separated column, strip each token
and drop empties. -/
def explodeTokens (rows : List String) : List String :=
  ((rows.flatMap pySplit).map pyStrip).filter (fun x => x != "")

/-- The `value_counts().head(top_k).index.tolist()` step: the distinct tokens
ordered by descending frequency (the order among equal counts is not specified
by pandas; any fixed order realizes the code's behaviour), truncated to `top_k`. -/
def topKByFreq (k : Nat) (toks : List String) : List String :=
  ((toks.dedup).insertionSort (fun a b => toks.count b ≤ toks.count a)).take k

/-- `GenresBinarizer.fit`: `classes_` is the caller-supplied `vocab` verbatim
when one is given, else the `top_k` most frequent tokens of the fit data. -/
def fitClasses (vocab : Option (List String)) (topK : Nat) (rows : List String) :
    List String :=
  match vocab with
  | some v => v
  | none => topKByFreq topK (explodeTokens rows)

/-! ### make_bins (backend/train_model_reg.py)

Fixed mode: `np.digitize(y, edges[1:-1], right=False)` over monotone interior
edges returns, for each value, the number of interior edges that are `≤` it
(searchsorted from the right), i.e. the half-open `[a, b)` convention.
Quantile mode: `pd.qcut(s, q=n_classes, retbins=True, duplicates="drop")`,
i.e. linear-interpolation quantiles at `0, 1/n, …, 1`, adjacent duplicate
edges dropped, and codes assigned with *right-closed* intervals
(`searchsorted(..., side="left") - 1`, with the minimum mapped into bin 0).
Labels render as `"[a, b)"` (`"[a, b]"` for the last interval) with the
boundaries formatted via `f"{x:.1f}"`.
-/

/-- Round to the nearest integer, ties to the even integer (the rounding used
by Python's `round` and string formatting). -/
def roundHalfEven (q : ℚ) : ℤ :=
  let f := ⌊q⌋
  let r := q - (f : ℚ)
  if r < 1/2 then f
  else if 1/2 < r then f + 1
  else if 2 ∣ f then f else f + 1

/-- Python `f"{x:.1f}"`: one digit after the decimal point. -/
def fmt1 (q : ℚ) : String :=
  let n := roundHalfEven (10 * q)
  let sg := if n < 0 then "-" else ""
  let m := n.natAbs
  sg ++ toString (m / 10) ++ "." ++ toString (m % 10)

/-- `edges[1:-1]`. -/
def interiorEdges (edges : List ℚ) : List ℚ := (edges.drop 1).dropLast

/-- Fixed-mode class assignment: `np.digitize(v, edges[1:-1], right=False)`. -/
def assignFixed (edges : List ℚ) (v : ℚ) : ℕ :=
  (interiorEdges edges).countP (fun b => decide (b ≤ v))

/-- The label-rendering loop of `make_bins` (identical in both branches, with
`real = len(edges) - 1` intervals). -/
def fmtLabels (edges : List ℚ) : List String :=
  let real := edges.length - 1
  (List.range real).map (fun i =>
    "[" ++ fmt1 (edges.getD i 0) ++ ", " ++ fmt1 (edges.getD (i + 1) 0) ++
      (if i < real - 1 then ")" else "]"))

/-- numpy's `"linear"` quantile of the *sorted* data `s` at fractional
position `p ∈ [0, len s - 1]`. -/
def quantileAt (s : List ℚ) (p : ℚ) : ℚ :=
  let k := (⌊p⌋).toNat
  match s.get? k, s.get? (k + 1) with
  | some a, some b => a + (p - (k : ℚ)) * (b - a)
  | some a, none => a
  | none, _ => 0

/-- `s.quantile(np.linspace(0, 1, q + 1))`: the `q + 1` quantile boundaries. -/
def quantileEdges (y : List ℚ) (q : ℕ) : List ℚ :=
  let s := y.insertionSort (· ≤ ·)
  (List.range (q + 1)).map
    (fun j : ℕ => quantileAt s ((j : ℚ) * ((s.length : ℚ) - 1) / (q : ℚ)))

/-- `np.unique` on an already nondecreasing list: drop adjacent duplicates. -/
def dedupSorted : List ℚ → List ℚ
  | [] => []
  | [a] => [a]
  | a :: b :: t => if a = b then dedupSorted (b :: t) else a :: dedupSorted (b :: t)

/-- The code a value receives from `pd.cut`'s assignment against the bin
edges: `searchsorted(bins, x, side="left")`, with `include_lowest` mapping the
left boundary itself to 1, minus one. -/
def qcutCode (bins : List ℚ) (x : ℚ) : ℤ :=
  let ids : ℕ := if bins.head? = some x then 1 else bins.countP (fun b => decide (b < x))
  (ids : ℤ) - 1

/-- `make_bins(y, mode, n_classes, fixed_edges)`.  Returns `none` where the
Python function raises (the `assert` of the fixed branch); otherwise the triple
`(class codes, edges, labels)`. -/
def makeBins (y : List ℚ) (mode : String) (nClasses : ℕ)
    (fixedEdges : Option (List ℚ)) : Option (List ℤ × List ℚ × List String) :=
  if mode = "fixed" then
    match fixedEdges with
    | some es =>
      if es ≠ [] ∧ es.length = nClasses + 1 then
        some (y.map (fun v => (assignFixed es v : ℤ)), es, fmtLabels es)
      else none
    | none => none
  else
    let edges := dedupSorted (quantileEdges y nClasses)
    some (y.map (qcutCode edges), edges, fmtLabels edges)

/-! ### The regression serving path (backend/server_reg.py, `/predict`) -/

structure PredictRequest where
  duration : ℤ
  budget : ℤ
  title_year : ℤ
  genres : List String
  content_rating : String
  deriving DecidableEq

structure ServerRow where
  duration : ℤ
  budget : ℤ
  title_year : ℤ
  content_rating : String
  genres : String
  deriving DecidableEq

structure PredictResponse where
  predicted_score : ℚ
  confidence : ℚ
  explanation : String
  deriving DecidableEq

/-- `"|".join([g.strip() for g in req.genres if g.strip()])`. -/
def joinGenres (gs : List String) : String :=
  pyJoin "|" ((gs.map pyStrip).filter (fun x => x != ""))

/-- The `row` dict assembled by the handler. -/
def buildRow (req : PredictRequest) : ServerRow :=
  { duration := req.duration
    budget := req.budget
    title_year := req.title_year
    content_rating := req.content_rating
    genres := joinGenres req.genres }

/-- Python `round(x, 2)`. -/
def round2 (q : ℚ) : ℚ := (roundHalfEven (100 * q) : ℚ) / 100

/-- `round(max(0.0, min(10.0, score)), 2)`: the served `predicted_score`. -/
def servedScore (score : ℚ) : ℚ := round2 (max 0 (min 10 score))

/-- The confidence heuristic before rounding: `0.5` when the model exposes no
per-member predictions, else `max(0.0, min(1.0, 1.0 - std / 2.5))`. -/
def confidenceFor (memberStd : Option ℚ) : ℚ :=
  match memberStd with
  | none => 1/2
  | some std => max 0 (min 1 (1 - std / (5/2)))

/-- The served `confidence`: `round(confidence, 2)`. -/
def servedConfidence (memberStd : Option ℚ) : ℚ := round2 (confidenceFor memberStd)

/-- The genres list after the handler's normalization: each entry stripped,
empty results dropped. -/
def cleanedList (gs : List String) : List String :=
  (gs.map pyStrip).filter (fun x => x != "")

/-- `np.mean`. -/
def pyMean (l : List ℚ) : ℚ := l.sum / l.length

/-- `np.std(l) ** 2`: the population variance. -/
def pyVariance (l : List ℚ) : ℚ := ((l.map (fun x => (x - pyMean l) ^ 2)).sum) / l.length

/-- `s` is `np.std l`: nonnegative and squaring to the population variance
(the square root itself is irrational in general, so it is characterized
relationally). -/
def IsStd (l : List ℚ) (s : ℚ) : Prop := 0 ≤ s ∧ s ^ 2 = pyVariance l

def explanationText : String :=
  "Features used: duration, budget, title_year, content_rating, genres (multi-hot)."

/-- The `/predict` handler, parameterized by the allowed content-rating set of
the metadata and by the fitted pipeline: `model` gives `pipe.predict` on the
assembled row and `conf` the confidence heuristic computed from the model's
member predictions on that row (`0.5` when unavailable).  An unknown
content rating raises `HTTPException(400, ...)` before either is consulted. -/
def predictHandler (allowed : List String) (model : ServerRow → ℚ)
    (conf : ServerRow → ℚ) (req : PredictRequest) : Except ℕ PredictResponse :=
  if req.content_rating ∈ allowed then
    let row := buildRow req
    Except.ok
      { predicted_score := servedScore (model row)
        confidence := round2 (conf row)
        explanation := explanationText }
  else Except.error 400

/-! ## Lemmas about `idxMap` and `transformRow` -/

theorem idxMap_eq_some {cs : List String} {g : String} {i : ℕ}
    (h : idxMap cs g = some i) : cs[i]? = some g := by
  induction cs generalizing i with
  | nil => simp [idxMap] at h
  | cons c t ih =>
    rw [idxMap] at h
    cases hm : idxMap t g with
    | some j =>
      rw [hm] at h
      simp only [Option.some.injEq] at h
      subst h
      simpa using ih hm
    | none =>
      rw [hm] at h
      by_cases hc : c = g
      · rw [if_pos hc, Option.some.injEq] at h
        subst h
        simp [hc]
      · rw [if_neg hc] at h
        exact absurd h (by simp)

theorem idxMap_of_getElem {cs : List String} (hnd : cs.Nodup) {i : ℕ} {g : String}
    (h : cs[i]? = some g) : idxMap cs g = some i := by
  induction cs generalizing i with
  | nil => simp at h
  | cons c t ih =>
    rcases List.nodup_cons.mp hnd with ⟨hc, ht⟩
    cases i with
    | zero =>
      simp only [List.getElem?_cons_zero, Option.some.injEq] at h
      subst h
      have hnone : idxMap t c = none := by
        cases hm : idxMap t c with
        | none => rfl
        | some j =>
          exact absurd (List.getElem?_mem (idxMap_eq_some hm)) hc
      rw [idxMap, hnone, if_pos rfl]
    | succ j =>
      simp only [List.getElem?_cons_succ] at h
      rw [idxMap, ih ht h]

theorem transformRow_getElem? {cs : List String} (hnd : cs.Nodup) (row : String)
    {i : ℕ} (hi : i < cs.length) :
    (transformRow cs row)[i]? =
      some (if cs.get ⟨i, hi⟩ ∈ parseTags row then 1 else 0) := by
  unfold transformRow
  rw [List.getElem?_map, List.getElem?_range hi, Option.map_some']
  have hiff : ((parseTags row).any (fun g => idxMap cs g == some i) = true) ↔
      cs.get ⟨i, hi⟩ ∈ parseTags row := by
    rw [List.any_eq_true]
    constructor
    · rintro ⟨g, hg, hbeq⟩
      have hsome : idxMap cs g = some i := by simpa using hbeq
      have := idxMap_eq_some hsome
      have hget : cs.get ⟨i, hi⟩ = g := by
        have : cs[i]? = some g := this
        simpa [List.getElem?_eq_getElem hi] using this
      rw [hget]; exact hg
    · intro hmem
      refine ⟨cs.get ⟨i, hi⟩, hmem, ?_⟩
      have hsome : cs[i]? = some (cs.get ⟨i, hi⟩) := by
        simp [List.getElem?_eq_getElem hi]
      have h2 : idxMap cs (cs.get ⟨i, hi⟩) = some i := idxMap_of_getElem hnd hsome
      simp only [h2, beq_self_eq_true]
  by_cases hmem : cs.get ⟨i, hi⟩ ∈ parseTags row
  · rw [if_pos hmem, if_pos (hiff.mpr hmem)]
  · rw [if_neg hmem, if_neg (fun hb => hmem (hiff.mp hb))]

theorem transformRow_length (cs : List String) (row : String) :
    (transformRow cs row).length = cs.length := by
  simp [transformRow]

/-- Claim C1 (amended: the per-position characterization requires the fitted
vocabulary to be duplicate-free, which the frequency-fitting path guarantees
but a caller-supplied vocabulary need not satisfy): for every fitted encoder
whose vocabulary has no duplicate tokens and every input row, `transform`
returns a vector of the vocabulary's length whose `i`-th entry is `1.0`
exactly when the `i`-th vocabulary token occurs among the row's pipe-split,
whitespace-trimmed tags and `0.0` otherwise; tokens outside the vocabulary
are ignored without raising, and a row with no parseable tags yields the
all-zero vector. -/
theorem claim1_transform_multihot (classes : List String) (hnd : classes.Nodup)
    (row : String) :
    (transformRow classes row).length = classes.length ∧
    (∀ (i : ℕ) (hi : i < classes.length),
      (transformRow classes row).getD i 0 =
        if classes.get ⟨i, hi⟩ ∈ parseTags row then 1 else 0) ∧
    (parseTags row = [] →
      transformRow classes row = List.replicate classes.length 0) := by
  refine ⟨transformRow_length classes row, ?_, ?_⟩
  · intro i hi
    rw [List.getD_eq_getElem?_getD, transformRow_getElem? hnd row hi, Option.getD_some]
  · intro hzero
    simp [transformRow, hzero, List.map_const']

/-- Claim C1, counterexample to the claim as stated: an encoder can be fitted
with a caller-supplied vocabulary containing duplicates (`fit` copies it
verbatim); with vocabulary `["A", "A"]`, the row `"A"` contains vocabulary
token 0, yet entry 0 of the transform output is `0.0`, not `1.0`, because the
Python index dict keeps only the last position of a duplicated token. -/
theorem claim1_counterexample :
    fitClasses (some ["A", "A"]) 30 [] = ["A", "A"] ∧
    "A" ∈ parseTags "A" ∧
    (transformRow ["A", "A"] "A").getD 0 0 = 0 ∧
    (0 : ℚ) ≠ 1 := by
  refine ⟨rfl, by decide, by decide, by norm_num⟩

/-- Witness for `claim1_transform_multihot` at a concrete fitted encoder and a
row holding one known (whitespace-wrapped) and one unseen tag. -/
theorem claim1_witness :
    (["Comedy", "Drama"] : List String).Nodup ∧
    ((transformRow ["Comedy", "Drama"] " Drama |Sci-Fi").length =
        (["Comedy", "Drama"] : List String).length ∧
      (∀ (i : ℕ) (hi : i < (["Comedy", "Drama"] : List String).length),
        (transformRow ["Comedy", "Drama"] " Drama |Sci-Fi").getD i 0 =
          if (["Comedy", "Drama"] : List String).get ⟨i, hi⟩ ∈
              parseTags " Drama |Sci-Fi" then 1 else 0) ∧
      (parseTags " Drama |Sci-Fi" = [] →
        transformRow ["Comedy", "Drama"] " Drama |Sci-Fi" =
          List.replicate (["Comedy", "Drama"] : List String).length 0)) :=
  ⟨by decide, claim1_transform_multihot ["Comedy", "Drama"] (by decide) " Drama |Sci-Fi"⟩

/-- Claim C6: duplicate tags within one input row contribute no additional
weight; for every fitted vocabulary, transforming `"Comedy|Comedy"` produces
exactly the vector of `"Comedy"`. -/
theorem claim6_duplicate_tags (classes : List String) :
    transformRow classes "Comedy|Comedy" = transformRow classes "Comedy" := by
  have h1 : parseTags "Comedy|Comedy" = ["Comedy", "Comedy"] := by decide
  have h2 : parseTags "Comedy" = ["Comedy"] := by decide
  simp only [transformRow, h1, h2, List.any_cons, List.any_nil,
    Bool.or_false, Bool.or_self]

/-- Claim C9: calling `transform` on an encoder that was never fitted
(`classes_ is None`) raises the `RuntimeError` marking the unfitted state and
produces no output. -/
theorem claim9_not_fitted (rows : List String) :
    transformOpt none rows = Except.error "GenresBinarizer is not fitted." := rfl

/-- Claim C5 (amended: uniqueness and the `top_k` cap hold for the
frequency-counting fit path, while a caller-supplied vocabulary is copied
verbatim — neither deduplicated nor capped; in both cases `transform` leaves
the fitted state untouched). -/
theorem claim5_vocabulary :
    (∀ (topK : ℕ) (rows : List String),
      (fitClasses none topK rows).Nodup ∧ (fitClasses none topK rows).length ≤ topK) ∧
    (∀ (v : List String) (topK : ℕ) (rows : List String),
      fitClasses (some v) topK rows = v) ∧
    (∀ (cs : Option (List String)) (rows : List String),
      (transformMethod cs rows).1 = cs) := by
  refine ⟨?_, fun _ _ _ => rfl, fun _ _ => rfl⟩
  intro topK rows
  constructor
  · apply List.Nodup.sublist (List.take_sublist _ _)
    exact ((List.perm_insertionSort _ _).nodup_iff).mpr (List.nodup_dedup _)
  · exact (List.length_take_le _ _)

/-- Claim C5, counterexample to the claim as stated: fitting with the explicit
caller-supplied vocabulary `["A", "A", "B"]` under cap `top_k = 2` yields a
`classes_` that is neither duplicate-free nor within the cap. -/
theorem claim5_counterexample :
    ¬ ((fitClasses (some ["A", "A", "B"]) 2 []).Nodup ∧
       (fitClasses (some ["A", "A", "B"]) 2 []).length ≤ 2) := by
  decide

/-- Claim C8: a request whose `content_rating` is outside the allowed set of
the model metadata is rejected with HTTP 400 before the pipeline runs — the
result does not depend on the model, and no prediction is computed. -/
theorem claim8_reject_unknown_rating (allowed : List String)
    (model conf : ServerRow → ℚ) (req : PredictRequest)
    (h : req.content_rating ∉ allowed) :
    predictHandler allowed model conf req = Except.error 400 := by
  simp [predictHandler, h]

/-- Witness for `claim8_reject_unknown_rating`: the spec's end-to-end
scenario, `content_rating = "XXX-UNKNOWN"`. -/
theorem claim8_witness :
    ("XXX-UNKNOWN" ∉ (["PG-13", "R", "Unrated"] : List String)) ∧
    predictHandler ["PG-13", "R", "Unrated"] (fun _ => 7) (fun _ => 1/2)
        { duration := 120, budget := 50000000, title_year := 2015,
          genres := ["Action"], content_rating := "XXX-UNKNOWN" } =
      Except.error 400 :=
  ⟨by decide,
    claim8_reject_unknown_rating ["PG-13", "R", "Unrated"] (fun _ => 7) (fun _ => 1/2)
      { duration := 120, budget := 50000000, title_year := 2015,
        genres := ["Action"], content_rating := "XXX-UNKNOWN" } (by decide)⟩

/-! ## Whitespace-stripping lemmas for the serving-path normalization -/

theorem dropWhile_dropWhile (p : α → Bool) (l : List α) :
    (l.dropWhile p).dropWhile p = l.dropWhile p := by
  induction l with
  | nil => rfl
  | cons a t ih =>
    by_cases h : p a
    · rw [List.dropWhile_cons_of_pos h]
      exact ih
    · rw [List.dropWhile_cons_of_neg h, List.dropWhile_cons_of_neg h]

theorem dropWhile_eq_self_of_head (p : α → Bool) (l : List α)
    (h : ∀ a, l.head? = some a → p a = false) : l.dropWhile p = l := by
  cases l with
  | nil => rfl
  | cons a t => exact List.dropWhile_cons_of_neg (by simp [h a rfl])

theorem stripChars_back (l : List Char) :
    (stripChars l).reverse.dropWhile isWS = (stripChars l).reverse := by
  unfold stripChars
  rw [List.reverse_reverse]
  exact dropWhile_dropWhile _ _

theorem stripChars_front (l : List Char) :
    (stripChars l).dropWhile isWS = stripChars l := by
  apply dropWhile_eq_self_of_head
  intro a ha
  unfold stripChars at ha
  rw [List.head?_reverse] at ha
  set X := (l.dropWhile isWS).reverse with hX
  have hsuf : X.dropWhile isWS <:+ X := List.dropWhile_suffix isWS
  rcases hsuf with ⟨t, ht⟩
  cases hD : X.dropWhile isWS with
  | nil => rw [hD] at ha; simp at ha
  | cons c cs =>
    rw [hD] at ha ht
    have hlx : X.getLast? = some a := by
      rw [← ht, List.getLast?_append, ha]
      rfl
    rw [hX, List.getLast?_reverse] at hlx
    have hmatch := List.head?_dropWhile_not isWS l
    rw [hlx] at hmatch
    exact hmatch

theorem stripChars_idem (l : List Char) :
    stripChars (stripChars l) = stripChars l := by
  show ((((stripChars l).dropWhile isWS).reverse).dropWhile isWS).reverse = stripChars l
  rw [stripChars_front, stripChars_back, List.reverse_reverse]

theorem pyStrip_idem (s : String) : pyStrip (pyStrip s) = pyStrip s :=
  congrArg String.mk (stripChars_idem s.data)

theorem cleanedList_map_pyStrip (gs : List String) :
    (cleanedList gs).map pyStrip = cleanedList gs := by
  have h : ∀ x ∈ cleanedList gs, pyStrip x = id x := by
    intro x hx
    rcases List.mem_filter.mp hx with ⟨hm, _⟩
    rcases List.mem_map.mp hm with ⟨y, _, rfl⟩
    exact pyStrip_idem y
  rw [List.map_congr_left h, List.map_id]

theorem cleanedList_filter (gs : List String) :
    (cleanedList gs).filter (fun x => x != "") = cleanedList gs := by
  rw [List.filter_eq_self]
  intro a ha
  have ha' : a ∈ (gs.map pyStrip).filter (fun x => x != "") := ha
  exact (List.mem_filter.mp ha').2

theorem joinGenres_cleaned (gs : List String) :
    joinGenres gs = joinGenres (cleanedList gs) := by
  show pyJoin "|" (cleanedList gs) =
    pyJoin "|" (((cleanedList gs).map pyStrip).filter (fun x => x != ""))
  rw [cleanedList_map_pyStrip, cleanedList_filter]

/-- Claim C10: the handler strips each genre entry and drops empty or
whitespace-only entries before joining with `"|"`, so a request's genre list
encodes — and predicts — identically to its cleaned form; whitespace-only
entries and surrounding whitespace are immaterial, and `["", "  "]` behaves
exactly like `[]`. -/
theorem claim10_genres_normalized :
    (∀ gs : List String, joinGenres gs = joinGenres (cleanedList gs)) ∧
    (∀ (allowed : List String) (model conf : ServerRow → ℚ) (req : PredictRequest),
      buildRow req = buildRow { req with genres := cleanedList req.genres } ∧
      predictHandler allowed model conf req =
        predictHandler allowed model conf { req with genres := cleanedList req.genres }) ∧
    (∀ (xs ys : List String) (w : String), pyStrip w = "" →
      joinGenres (xs ++ w :: ys) = joinGenres (xs ++ ys)) ∧
    (∀ (xs ys : List String) (g g' : String), pyStrip g' = pyStrip g →
      joinGenres (xs ++ g' :: ys) = joinGenres (xs ++ g :: ys)) ∧
    (∀ (allowed : List String) (model conf : ServerRow → ℚ) (d b ty : ℤ) (cr : String),
      predictHandler allowed model conf
          { duration := d, budget := b, title_year := ty,
            genres := ["", "  "], content_rating := cr } =
        predictHandler allowed model conf
          { duration := d, budget := b, title_year := ty,
            genres := [], content_rating := cr }) := by
  refine ⟨joinGenres_cleaned, ?_, ?_, ?_, ?_⟩
  · intro allowed model conf req
    have hj : joinGenres req.genres = joinGenres (cleanedList req.genres) :=
      joinGenres_cleaned req.genres
    have hrow : buildRow req = buildRow { req with genres := cleanedList req.genres } := by
      simp [buildRow, hj]
    exact ⟨hrow, by simp [predictHandler, hrow]⟩
  · intro xs ys w hw
    simp [joinGenres, List.map_append, List.filter_append, List.filter_cons, hw]
  · intro xs ys g g' hgg
    simp [joinGenres, List.map_append, List.filter_append, List.filter_cons, hgg]
  · intro allowed model conf d b ty cr
    have h : joinGenres ["", "  "] = joinGenres [] := by decide
    simp [predictHandler, buildRow, h]

/-- Witness for `claim10_genres_normalized`: inserting the whitespace-only
entry `" "` between two genuine genres leaves the joined genres string
unchanged. -/
theorem claim10_witness :
    pyStrip " " = "" ∧
    joinGenres (["Action"] ++ " " :: ["Drama"]) = joinGenres (["Action"] ++ ["Drama"]) :=
  ⟨by decide, claim10_genres_normalized.2.2.1 ["Action"] ["Drama"] " " (by decide)⟩

/-! ## Rounding lemmas for the serving path -/

theorem roundHalfEven_mem (q : ℚ) :
    roundHalfEven q = ⌊q⌋ ∨ roundHalfEven q = ⌊q⌋ + 1 := by
  simp only [roundHalfEven]
  split_ifs
  · exact Or.inl rfl
  · exact Or.inr rfl
  · exact Or.inl rfl
  · exact Or.inr rfl

theorem roundHalfEven_nonneg {q : ℚ} (h : 0 ≤ q) : 0 ≤ roundHalfEven q := by
  have h0 : 0 ≤ ⌊q⌋ := Int.floor_nonneg.mpr h
  rcases roundHalfEven_mem q with hr | hr <;> omega

theorem roundHalfEven_le_ceil (q : ℚ) : roundHalfEven q ≤ ⌈q⌉ := by
  simp only [roundHalfEven]
  split_ifs with h1 h2 h3
  · exact Int.floor_le_ceil q
  · exact Int.add_one_le_ceil_iff.mpr (by linarith)
  · exact Int.floor_le_ceil q
  · have hhalf : q - (⌊q⌋ : ℚ) = 1/2 := le_antisymm (not_lt.mp h2) (not_lt.mp h1)
    exact Int.add_one_le_ceil_iff.mpr (by linarith)

theorem round2_nonneg {q : ℚ} (h : 0 ≤ q) : 0 ≤ round2 q := by
  unfold round2
  apply div_nonneg _ (by norm_num)
  have h1 : (0 : ℤ) ≤ roundHalfEven (100 * q) := roundHalfEven_nonneg (by positivity)
  exact_mod_cast h1

theorem round2_le_int {q : ℚ} {n : ℤ} (h : q ≤ (n : ℚ)) : round2 q ≤ (n : ℚ) := by
  have h2 : ⌈100 * q⌉ ≤ 100 * n := Int.ceil_le.mpr (by push_cast; linarith)
  have h1 : roundHalfEven (100 * q) ≤ 100 * n :=
    le_trans (roundHalfEven_le_ceil (100 * q)) h2
  unfold round2
  rw [div_le_iff₀ (by norm_num)]
  calc (roundHalfEven (100 * q) : ℚ) ≤ ((100 * n : ℤ) : ℚ) := by exact_mod_cast h1
    _ = (n : ℚ) * 100 := by push_cast; ring

/-- Claim C7 (amended: both served fields are rounded to 2 decimal places —
the code applies `round(..., 2)` to the confidence as well, so the returned
confidence is the heuristic `max(0, 1 - std/2.5)` *rounded*, not the raw
value): the served score is the raw prediction clamped to `[0, 10]` and
rounded, hence in `[0, 10]`; when the model exposes member predictions with
standard deviation `s`, the served confidence is `max(0, 1 - s/2.5)` rounded
to 2 decimals and lies in `[0, 1]`; without member predictions it is the
neutral `0.5`. -/
theorem claim7_serving_outputs (score : ℚ) (ms : List ℚ) (s : ℚ)
    (hs : IsStd ms s) :
    servedScore score = round2 (max 0 (min 10 score)) ∧
    0 ≤ servedScore score ∧ servedScore score ≤ 10 ∧
    servedConfidence (some s) = round2 (max 0 (1 - s / (5/2))) ∧
    0 ≤ servedConfidence (some s) ∧ servedConfidence (some s) ≤ 1 ∧
    servedConfidence none = 1/2 := by
  have hs0 : 0 ≤ s := hs.1
  have hmin : min 1 (1 - s / (5/2)) = 1 - s / (5/2) := by
    apply min_eq_right
    have : 0 ≤ s / (5/2) := by positivity
    linarith
  refine ⟨rfl, ?_, ?_, ?_, ?_, ?_, ?_⟩
  · exact round2_nonneg (le_max_left 0 _)
  · have h10 : max 0 (min 10 score) ≤ ((10 : ℤ) : ℚ) := by
      push_cast
      exact max_le (by norm_num) (min_le_left _ _)
    simpa using round2_le_int h10
  · show round2 (confidenceFor (some s)) = _
    rw [confidenceFor, hmin]
  · exact round2_nonneg (le_max_left 0 _)
  · have h1 : max 0 (min 1 (1 - s / (5/2))) ≤ ((1 : ℤ) : ℚ) := by
      push_cast
      exact max_le (by norm_num) (min_le_left _ _)
    simpa using round2_le_int h1
  · with_unfolding_all decide

/-- Claim C7, counterexample to the claim as stated: with member predictions
`[0, 2/3]` the standard deviation is `1/3` and `max(0, 1 - (1/3)/2.5) = 13/15
= 0.8666…`, but the handler returns `round(0.8666…, 2) = 0.87`: the returned
confidence does not equal the unrounded heuristic. -/
theorem claim7_counterexample :
    IsStd [0, 2/3] (1/3) ∧
    servedConfidence (some (1/3)) ≠ max 0 (1 - (1/3) / (5/2)) :=
  ⟨⟨by with_unfolding_all decide, by with_unfolding_all decide⟩,
    by with_unfolding_all decide⟩

/-- Witness for `claim7_serving_outputs` at a raw prediction of `12` (clamped
to `10`) and member predictions `[0, 2/3]` of standard deviation `1/3`. -/
theorem claim7_witness :
    IsStd [0, 2/3] (1/3) ∧
    (servedScore 12 = round2 (max 0 (min 10 12)) ∧
      0 ≤ servedScore 12 ∧ servedScore 12 ≤ 10 ∧
      servedConfidence (some (1/3)) = round2 (max 0 (1 - (1/3) / (5/2))) ∧
      0 ≤ servedConfidence (some (1/3)) ∧ servedConfidence (some (1/3)) ≤ 1 ∧
      servedConfidence none = 1/2) := by
  have hstd : IsStd [0, 2/3] (1/3) :=
    ⟨by with_unfolding_all decide, by with_unfolding_all decide⟩
  exact ⟨hstd, claim7_serving_outputs 12 [0, 2/3] (1/3) hstd⟩

/-! ## Counting below a position in a strictly increasing list -/

theorem countP_le_getElem_of_sorted {l : List ℚ} (h : l.Pairwise (· < ·)) (i : ℕ)
    (hi : i < l.length) :
    l.countP (fun b => decide (b ≤ l[i])) = i + 1 := by
  induction l generalizing i with
  | nil => simp at hi
  | cons a t ih =>
    rcases List.pairwise_cons.mp h with ⟨ha, ht⟩
    cases i with
    | zero =>
      show (a :: t).countP (fun b => decide (b ≤ a)) = 1
      rw [List.countP_cons]
      have h0 : t.countP (fun b => decide (b ≤ a)) = 0 := by
        rw [List.countP_eq_zero]
        intro x hx
        simpa using not_le.mpr (ha x hx)
      simp [h0]
    | succ j =>
      have hj : j < t.length := Nat.lt_of_succ_lt_succ hi
      show (a :: t).countP (fun b => decide (b ≤ t[j])) = j + 1 + 1
      rw [List.countP_cons, ih ht j hj]
      have haj : a ≤ t[j] := le_of_lt (ha _ (List.getElem_mem hj))
      simp [haj]

theorem countP_lt_getElem_of_sorted {l : List ℚ} (h : l.Pairwise (· < ·)) (i : ℕ)
    (hi : i < l.length) :
    l.countP (fun b => decide (b < l[i])) = i := by
  induction l generalizing i with
  | nil => simp at hi
  | cons a t ih =>
    rcases List.pairwise_cons.mp h with ⟨ha, ht⟩
    cases i with
    | zero =>
      show (a :: t).countP (fun b => decide (b < a)) = 0
      rw [List.countP_cons]
      have h0 : t.countP (fun b => decide (b < a)) = 0 := by
        rw [List.countP_eq_zero]
        intro x hx
        simpa using not_lt.mpr (le_of_lt (ha x hx))
      simp [h0]
    | succ j =>
      have hj : j < t.length := Nat.lt_of_succ_lt_succ hi
      show (a :: t).countP (fun b => decide (b < t[j])) = j + 1
      rw [List.countP_cons, ih ht j hj]
      have haj : a < t[j] := ha _ (List.getElem_mem hj)
      simp [haj]

/-! ## The interior edges `edges[1:-1]` -/

theorem interiorEdges_length (edges : List ℚ) :
    (interiorEdges edges).length = edges.length - 2 := by
  simp only [interiorEdges, List.length_dropLast, List.length_drop]
  omega

theorem interiorEdges_getElem? (edges : List ℚ) (j : ℕ) (hj : j < edges.length - 2) :
    (interiorEdges edges)[j]? = edges[j + 1]? := by
  show ((edges.drop 1).dropLast)[j]? = _
  rw [List.getElem?_dropLast, List.length_drop, List.getElem?_drop]
  rw [if_pos (by omega), show 1 + j = j + 1 from Nat.add_comm 1 j]

theorem interiorEdges_getElem (edges : List ℚ) (j : ℕ)
    (hj : j < (interiorEdges edges).length) (hj1 : j + 1 < edges.length) :
    (interiorEdges edges)[j] = edges[j + 1] := by
  have hq := interiorEdges_getElem? edges j (by rw [interiorEdges_length] at hj; omega)
  rw [List.getElem?_eq_getElem hj, List.getElem?_eq_getElem hj1] at hq
  exact Option.some_inj.mp hq

theorem interiorEdges_pairwise {edges : List ℚ} (h : edges.Pairwise (· < ·)) :
    (interiorEdges edges).Pairwise (· < ·) :=
  List.Pairwise.sublist ((List.dropLast_sublist _).trans (List.drop_sublist 1 edges)) h

theorem getD_eq_getElem {α : Type _} (l : List α) (i : ℕ) {d : α}
    (hi : i < l.length) : l.getD i d = l[i] := by
  rw [List.getD_eq_getElem?_getD, List.getElem?_eq_getElem hi, Option.getD_some]

/-! ## Fixed-mode assignment at the edges -/

theorem assignFixed_at_interior {edges : List ℚ} {n i : ℕ}
    (h : edges.Pairwise (· < ·)) (hlen : edges.length = n + 1)
    (h0 : 0 < i) (hn : i < n) :
    assignFixed edges (edges.getD i 0) = i := by
  have hi : i < edges.length := by omega
  have hj : i - 1 < (interiorEdges edges).length := by
    rw [interiorEdges_length]; omega
  have hval : (interiorEdges edges)[i - 1] = edges[i] := by
    have hq := interiorEdges_getElem? edges (i - 1)
      (by rw [interiorEdges_length] at hj; omega)
    rw [show i - 1 + 1 = i from by omega, List.getElem?_eq_getElem hj,
      List.getElem?_eq_getElem hi] at hq
    exact Option.some_inj.mp hq
  rw [getD_eq_getElem edges i hi]
  show (interiorEdges edges).countP (fun b => decide (b ≤ edges[i])) = i
  rw [← hval,
    countP_le_getElem_of_sorted (interiorEdges_pairwise h) (i - 1) hj]
  omega

theorem assignFixed_at_top {edges : List ℚ} {n : ℕ}
    (h : edges.Pairwise (· < ·)) (hlen : edges.length = n + 1) (hn : 1 ≤ n) :
    assignFixed edges (edges.getD n 0) = n - 1 := by
  have hi : n < edges.length := by omega
  rw [getD_eq_getElem edges n hi]
  show (interiorEdges edges).countP (fun b => decide (b ≤ edges[n])) = n - 1
  have hall : ∀ x ∈ interiorEdges edges, (fun b => decide (b ≤ edges[n])) x = true := by
    intro x hx
    rcases List.getElem_of_mem hx with ⟨j, hjl, rfl⟩
    have hj1 : j + 1 < edges.length := by
      rw [interiorEdges_length] at hjl; omega
    rw [interiorEdges_getElem edges j hjl hj1]
    have hlt : edges[j + 1] < edges[n] := by
      apply (List.pairwise_iff_getElem.mp h) (j + 1) n hj1 hi
      rw [interiorEdges_length] at hjl; omega
    simpa using le_of_lt hlt
  rw [List.countP_eq_length.mpr hall, interiorEdges_length, hlen]
  omega

/-! ## Quantile-mode assignment at the edges -/

theorem qcutCode_at_edge {bins : List ℚ} {i : ℕ} (h : bins.Pairwise (· < ·))
    (h0 : 0 < i) (hi : i < bins.length) :
    qcutCode bins (bins.getD i 0) = (i : ℤ) - 1 := by
  have h00 : 0 < bins.length := by omega
  rw [getD_eq_getElem bins i hi]
  have hne : ¬ bins.head? = some bins[i] := by
    rw [List.head?_eq_getElem?, List.getElem?_eq_getElem h00]
    intro hcontra
    have heq : bins[0] = bins[i] := Option.some_inj.mp hcontra
    exact absurd heq
      (ne_of_lt ((List.pairwise_iff_getElem.mp h) 0 i h00 hi h0))
  show (↑(if bins.head? = some bins[i] then 1
        else bins.countP (fun b => decide (b < bins[i]))) : ℤ) - 1 = (i : ℤ) - 1
  rw [if_neg hne, countP_lt_getElem_of_sorted h i hi]

/-- Claim C2 (amended: the half-open `[a, b)` boundary convention holds for
the fixed-edge mode — a value equal to interior edge `edges[i]` gets class
`i`, a value equal to the top edge gets the last class, and `6.5` gets class
2 under the configured fixed edges — but pd.qcut's quantile mode uses
*right-closed* intervals: there a value equal to interior edge `edges[i]`
is assigned class `i - 1`, not `i`). -/
theorem claim2_bin_boundaries :
    (∀ (edges : List ℚ) (n i : ℕ), edges.Pairwise (· < ·) →
      edges.length = n + 1 → 0 < i → i < n →
      assignFixed edges (edges.getD i 0) = i) ∧
    (∀ (edges : List ℚ) (n : ℕ), edges.Pairwise (· < ·) →
      edges.length = n + 1 → 1 ≤ n →
      assignFixed edges (edges.getD n 0) = n - 1) ∧
    (makeBins [13/2] "fixed" 5 (some [0, 5, 13/2, 15/2, 17/2, 10]) =
      some ([2], [0, 5, 13/2, 15/2, 17/2, 10],
        ["[0.0, 5.0)", "[5.0, 6.5)", "[6.5, 7.5)", "[7.5, 8.5)", "[8.5, 10.0]"])) ∧
    (∀ (bins : List ℚ) (i : ℕ), bins.Pairwise (· < ·) → 0 < i → i < bins.length →
      qcutCode bins (bins.getD i 0) = (i : ℤ) - 1) := by
  refine ⟨?_, ?_, by with_unfolding_all decide, ?_⟩
  · intro edges n i h hlen h0 hn
    exact assignFixed_at_interior h hlen h0 hn
  · intro edges n h hlen hn
    exact assignFixed_at_top h hlen hn
  · intro bins i h h0 hi
    exact qcutCode_at_edge h h0 hi

/-- Claim C2, counterexample to the claim as stated for the quantile mode:
on the strictly increasing target sample `0, …, 8` with `n_classes = 4`,
`make_bins` produces edges `[0, 2, 4, 6, 8]`; the value `2` — exactly the
interior edge `edges[1]` — receives class code `0`, not `1`, because pd.qcut
intervals are closed on the right. -/
theorem claim2_counterexample :
    makeBins [0, 1, 2, 3, 4, 5, 6, 7, 8] "quantile" 4 none =
      some ([0, 0, 0, 1, 1, 2, 2, 3, 3], [0, 2, 4, 6, 8],
        ["[0.0, 2.0)", "[2.0, 4.0)", "[4.0, 6.0)", "[6.0, 8.0]"]) ∧
    ([0, 2, 4, 6, 8] : List ℚ).getD 1 0 = 2 ∧
    qcutCode [0, 2, 4, 6, 8] 2 = 0 ∧ (0 : ℤ) ≠ 1 := by
  refine ⟨by with_unfolding_all decide, by with_unfolding_all decide,
    by with_unfolding_all decide, by decide⟩

/-- Witness for `claim2_bin_boundaries`: the configured fixed edges
`[0, 5, 6.5, 7.5, 8.5, 10]` at interior edge index 2 (value `6.5`), and the
quantile edges `[0, 2, 4, 6, 8]` at interior edge index 1 (value `2`). -/
theorem claim2_witness :
    (([0, 5, 13/2, 15/2, 17/2, 10] : List ℚ).Pairwise (· < ·) ∧
      ([0, 5, 13/2, 15/2, 17/2, 10] : List ℚ).length = 5 + 1 ∧
      ([0, 2, 4, 6, 8] : List ℚ).Pairwise (· < ·)) ∧
    assignFixed [0, 5, 13/2, 15/2, 17/2, 10]
        (([0, 5, 13/2, 15/2, 17/2, 10] : List ℚ).getD 2 0) = 2 ∧
    qcutCode [0, 2, 4, 6, 8] (([0, 2, 4, 6, 8] : List ℚ).getD 1 0) = (1 : ℤ) - 1 := by
  have h1 : ([0, 5, 13/2, 15/2, 17/2, 10] : List ℚ).Pairwise (· < ·) := by
    with_unfolding_all decide
  have h2 : ([0, 2, 4, 6, 8] : List ℚ).Pairwise (· < ·) := by
    with_unfolding_all decide
  exact ⟨⟨h1, rfl, h2⟩,
    claim2_bin_boundaries.1 [0, 5, 13/2, 15/2, 17/2, 10] 5 2 h1 rfl (by omega) (by omega),
    claim2_bin_boundaries.2.2.2 [0, 2, 4, 6, 8] 1 h2 (by omega) (by norm_num)⟩

/-- Claim C4: in fixed-edge mode with `n` classes (`n + 1` supplied edges),
`make_bins` never raises on any input value and assigns every value — also
those below the first or above the last edge — a class index in
`[0, n - 1]`; with monotone edges, out-of-range values land in the nearest
boundary interval (class `0` below, class `n - 1` above). -/
theorem claim4_fixed_total (edges : List ℚ) (n : ℕ) (y : List ℚ)
    (hn : 1 ≤ n) (hlen : edges.length = n + 1) :
    (∃ codes labels,
      makeBins y "fixed" n (some edges) = some (codes, edges, labels) ∧
      ∀ c ∈ codes, 0 ≤ c ∧ c ≤ (n : ℤ) - 1) ∧
    (edges.Pairwise (· < ·) →
      (∀ v : ℚ, v < edges.getD 0 0 → assignFixed edges v = 0) ∧
      (∀ v : ℚ, edges.getD n 0 < v → assignFixed edges v = n - 1)) := by
  constructor
  · refine ⟨y.map (fun v => (assignFixed edges v : ℤ)), fmtLabels edges, ?_, ?_⟩
    · have hne : edges ≠ [] := by
        intro hcontra; rw [hcontra] at hlen; simp at hlen
      simp [makeBins, hne, hlen]
    · intro c hc
      rcases List.mem_map.mp hc with ⟨v, _, rfl⟩
      refine ⟨Int.natCast_nonneg _, ?_⟩
      have hle : (interiorEdges edges).countP (fun b => decide (b ≤ v)) ≤
          (interiorEdges edges).length := List.countP_le_length _
      have hlen2 : (interiorEdges edges).length = edges.length - 2 :=
        interiorEdges_length edges
      have h3 : assignFixed edges v ≤ n - 1 := by
        show (interiorEdges edges).countP (fun b => decide (b ≤ v)) ≤ n - 1
        omega
      omega
  · intro hpw
    constructor
    · intro v hv
      have h0l : 0 < edges.length := by omega
      rw [getD_eq_getElem edges 0 h0l] at hv
      show (interiorEdges edges).countP (fun b => decide (b ≤ v)) = 0
      rw [List.countP_eq_zero]
      intro x hx
      rcases List.getElem_of_mem hx with ⟨j, hjl, rfl⟩
      have hj1 : j + 1 < edges.length := by
        rw [interiorEdges_length] at hjl; omega
      rw [interiorEdges_getElem edges j hjl hj1]
      have hlt : edges[0] < edges[j + 1] :=
        (List.pairwise_iff_getElem.mp hpw) 0 (j + 1) h0l hj1 (by omega)
      simpa using not_le.mpr (lt_trans hv hlt)
    · intro v hv
      have hnl : n < edges.length := by omega
      rw [getD_eq_getElem edges n hnl] at hv
      show (interiorEdges edges).countP (fun b => decide (b ≤ v)) = n - 1
      have hall : ∀ x ∈ interiorEdges edges, (fun b => decide (b ≤ v)) x = true := by
        intro x hx
        rcases List.getElem_of_mem hx with ⟨j, hjl, rfl⟩
        have hj1 : j + 1 < edges.length := by
          rw [interiorEdges_length] at hjl; omega
        rw [interiorEdges_getElem edges j hjl hj1]
        have hlt : edges[j + 1] < edges[n] := by
          apply (List.pairwise_iff_getElem.mp hpw) (j + 1) n hj1 hnl
          rw [interiorEdges_length] at hjl; omega
        simpa using le_of_lt (lt_trans hlt hv)
      rw [List.countP_eq_length.mpr hall, interiorEdges_length, hlen]
      omega

/-- Witness for `claim4_fixed_total` on the configured fixed edges with the
out-of-range values `-3` (below) and `42` (above). -/
theorem claim4_witness :
    ((1 : ℕ) ≤ 5 ∧ ([0, 5, 13/2, 15/2, 17/2, 10] : List ℚ).length = 5 + 1) ∧
    ((∃ codes labels,
      makeBins [-3, 42] "fixed" 5 (some [0, 5, 13/2, 15/2, 17/2, 10]) =
        some (codes, [0, 5, 13/2, 15/2, 17/2, 10], labels) ∧
      ∀ c ∈ codes, 0 ≤ c ∧ c ≤ (5 : ℤ) - 1) ∧
    (([0, 5, 13/2, 15/2, 17/2, 10] : List ℚ).Pairwise (· < ·) →
      (∀ v : ℚ, v < ([0, 5, 13/2, 15/2, 17/2, 10] : List ℚ).getD 0 0 →
        assignFixed [0, 5, 13/2, 15/2, 17/2, 10] v = 0) ∧
      (∀ v : ℚ, ([0, 5, 13/2, 15/2, 17/2, 10] : List ℚ).getD 5 0 < v →
        assignFixed [0, 5, 13/2, 15/2, 17/2, 10] v = 5 - 1))) :=
  ⟨⟨by omega, rfl⟩, claim4_fixed_total [0, 5, 13/2, 15/2, 17/2, 10] 5 [-3, 42]
    (by omega) rfl⟩

/-! ## Quantile machinery: `dedupSorted` and `quantileAt` -/

theorem dedupSorted_length_le (l : List ℚ) : (dedupSorted l).length ≤ l.length := by
  induction l with
  | nil => simp [dedupSorted]
  | cons a t ih =>
    cases t with
    | nil => simp [dedupSorted]
    | cons b t' =>
      rw [dedupSorted]
      by_cases hab : a = b
      · rw [if_pos hab]
        exact le_trans ih (by simp)
      · rw [if_neg hab]
        simpa using ih

theorem dedupSorted_eq_self {l : List ℚ} (h : l.Pairwise (· < ·)) :
    dedupSorted l = l := by
  induction l with
  | nil => rfl
  | cons a t ih =>
    cases t with
    | nil => rfl
    | cons b t' =>
      rw [dedupSorted]
      have hab : a ≠ b := ne_of_lt ((List.pairwise_cons.mp h).1 b (by simp))
      rw [if_neg hab, ih (List.pairwise_cons.mp h).2]

theorem quantileAt_eq_mid {s : List ℚ} {p : ℚ} {k : ℕ} (hk : k = (⌊p⌋).toNat)
    (hk1 : k + 1 < s.length) :
    quantileAt s p =
      s.getD k 0 + (p - (k : ℚ)) * (s.getD (k + 1) 0 - s.getD k 0) := by
  rw [getD_eq_getElem s k (by omega), getD_eq_getElem s (k + 1) hk1]
  subst hk
  simp only [quantileAt]
  rw [List.get?_eq_getElem?, List.get?_eq_getElem?,
    List.getElem?_eq_getElem (by omega : (⌊p⌋).toNat < s.length),
    List.getElem?_eq_getElem hk1]

theorem quantileAt_eq_last {s : List ℚ} {p : ℚ} {k : ℕ} (hk : k = (⌊p⌋).toNat)
    (hkl : k < s.length) (hk1 : s.length ≤ k + 1) :
    quantileAt s p = s.getD k 0 := by
  rw [getD_eq_getElem s k hkl]
  subst hk
  simp only [quantileAt]
  rw [List.get?_eq_getElem?, List.get?_eq_getElem?,
    List.getElem?_eq_getElem hkl, List.getElem?_eq_none hk1]

theorem quantileAt_zero {s : List ℚ} (h : s ≠ []) :
    quantileAt s 0 = s.getD 0 0 := by
  have h0 : (0 : ℕ) = (⌊(0 : ℚ)⌋).toNat := by norm_num
  have hl : 0 < s.length := List.length_pos.mpr h
  rcases Nat.lt_or_ge 1 s.length with hc | hc
  · rw [quantileAt_eq_mid h0 (by omega)]
    norm_num
  · exact quantileAt_eq_last h0 hl (by omega)

theorem quantileAt_top {s : List ℚ} (h : s ≠ []) :
    quantileAt s ((s.length : ℚ) - 1) = s.getD (s.length - 1) 0 := by
  have hlen : 1 ≤ s.length := List.length_pos.mpr h
  have hcast : ((s.length : ℚ) - 1) = ((s.length - 1 : ℕ) : ℚ) := by
    push_cast [hlen]
    ring
  have hfloor : s.length - 1 = (⌊(s.length : ℚ) - 1⌋).toNat := by
    rw [hcast, Int.floor_natCast, Int.toNat_natCast]
  exact quantileAt_eq_last hfloor (by omega) (by omega)

theorem quantileAt_strictMono {s : List ℚ} (hs : s.Pairwise (· < ·))
    {p p' : ℚ} (hp0 : 0 ≤ p) (hpp : p < p') (hp1 : p' ≤ (s.length : ℚ) - 1) :
    quantileAt s p < quantileAt s p' := by
  have hp0' : 0 ≤ p' := le_of_lt (lt_of_le_of_lt hp0 hpp)
  have hn2 : 2 ≤ s.length := by
    by_contra hcon
    push_neg at hcon
    have hle1 : s.length ≤ 1 := by omega
    have hc : (s.length : ℚ) ≤ 1 := by exact_mod_cast hle1
    linarith
  obtain ⟨k, hkdef⟩ : ∃ k, k = (⌊p⌋).toNat := ⟨_, rfl⟩
  obtain ⟨k', hkdef'⟩ : ∃ m, m = (⌊p'⌋).toNat := ⟨_, rfl⟩
  have hfk : (k : ℤ) = ⌊p⌋ := by
    rw [hkdef]; exact Int.toNat_of_nonneg (Int.floor_nonneg.mpr hp0)
  have hfk' : (k' : ℤ) = ⌊p'⌋ := by
    rw [hkdef']; exact Int.toNat_of_nonneg (Int.floor_nonneg.mpr hp0')
  have hkp : (k : ℚ) ≤ p := by
    have h2 : ((k : ℤ) : ℚ) ≤ p := by rw [hfk]; exact Int.floor_le p
    exact_mod_cast h2
  have hpk : p < (k : ℚ) + 1 := by
    have h2 : p < ((k : ℤ) : ℚ) + 1 := by rw [hfk]; exact Int.lt_floor_add_one p
    exact_mod_cast h2
  have hkp' : (k' : ℚ) ≤ p' := by
    have h2 : ((k' : ℤ) : ℚ) ≤ p' := by rw [hfk']; exact Int.floor_le p'
    exact_mod_cast h2
  have hpk' : p' < (k' : ℚ) + 1 := by
    have h2 : p' < ((k' : ℤ) : ℚ) + 1 := by rw [hfk']; exact Int.lt_floor_add_one p'
    exact_mod_cast h2
  have hkk' : k ≤ k' := by
    have h1 : ⌊p⌋ ≤ ⌊p'⌋ := Int.floor_le_floor (le_of_lt hpp)
    omega
  have hcast1 : ((s.length - 1 : ℕ) : ℚ) = (s.length : ℚ) - 1 := by
    push_cast [show 1 ≤ s.length by omega]
    ring
  have hkn' : k' ≤ s.length - 1 := by
    have h1 : (k' : ℚ) ≤ ((s.length - 1 : ℕ) : ℚ) := by
      rw [hcast1]; exact le_trans hkp' hp1
    exact_mod_cast h1
  have hLB : s.getD k' 0 ≤ quantileAt s p' := by
    rcases Nat.lt_or_ge (k' + 1) s.length with hc | hc
    · rw [quantileAt_eq_mid hkdef' hc]
      have hadj : s.getD k' 0 < s.getD (k' + 1) 0 := by
        rw [getD_eq_getElem s k' (by omega), getD_eq_getElem s (k' + 1) hc]
        exact (List.pairwise_iff_getElem.mp hs) k' (k' + 1) (by omega) hc (by omega)
      have hprod : 0 ≤ (p' - (k' : ℚ)) * (s.getD (k' + 1) 0 - s.getD k' 0) :=
        mul_nonneg (by linarith) (by linarith)
      linarith
    · rw [quantileAt_eq_last hkdef' (by omega) hc]
  rcases eq_or_lt_of_le hkk' with heq | hlt
  · subst heq
    have hc : k + 1 < s.length := by
      by_contra hcon
      push_neg at hcon
      have h5 : p' ≤ (k : ℚ) := by
        have h6 : ((s.length - 1 : ℕ) : ℚ) ≤ (k : ℚ) := by
          exact_mod_cast (by omega : s.length - 1 ≤ k)
        rw [hcast1] at h6
        linarith
      linarith
    rw [quantileAt_eq_mid hkdef hc, quantileAt_eq_mid hkdef' hc]
    have hadj : s.getD k 0 < s.getD (k + 1) 0 := by
      rw [getD_eq_getElem s k (by omega), getD_eq_getElem s (k + 1) hc]
      exact (List.pairwise_iff_getElem.mp hs) k (k + 1) (by omega) hc (by omega)
    have hff' : p - (k : ℚ) < p' - (k : ℚ) := by linarith
    have hmul := mul_lt_mul_of_pos_right hff' (sub_pos.mpr hadj)
    linarith
  · have hc : k + 1 < s.length := by omega
    rw [quantileAt_eq_mid hkdef hc]
    have hadj : s.getD k 0 < s.getD (k + 1) 0 := by
      rw [getD_eq_getElem s k (by omega), getD_eq_getElem s (k + 1) hc]
      exact (List.pairwise_iff_getElem.mp hs) k (k + 1) (by omega) hc (by omega)
    have hub : s.getD k 0 + (p - (k : ℚ)) * (s.getD (k + 1) 0 - s.getD k 0) <
        s.getD (k + 1) 0 := by
      have hf1 : p - (k : ℚ) < 1 := by linarith
      have hmul := mul_lt_mul_of_pos_right hf1 (sub_pos.mpr hadj)
      linarith
    have hmono : s.getD (k + 1) 0 ≤ s.getD k' 0 := by
      rcases eq_or_lt_of_le (by omega : k + 1 ≤ k') with he | hl
      · exact le_of_eq (by rw [he])
      · rw [getD_eq_getElem s (k + 1) hc, getD_eq_getElem s k' (by omega)]
        exact le_of_lt ((List.pairwise_iff_getElem.mp hs) (k + 1) k' hc (by omega) hl)
    linarith

/-! ## Bounds of a strictly increasing list -/

theorem sorted_head_le {l : List ℚ} (h : l.Pairwise (· < ·)) {x : ℚ}
    (hx : x ∈ l) : l.getD 0 0 ≤ x := by
  cases l with
  | nil => simp at hx
  | cons a t =>
    rcases List.mem_cons.mp hx with rfl | hxt
    · simp
    · simpa using le_of_lt ((List.pairwise_cons.mp h).1 x hxt)

theorem sorted_le_getLast {l : List ℚ} (h : l.Pairwise (· < ·)) {x : ℚ}
    (hx : x ∈ l) : x ≤ l.getD (l.length - 1) 0 := by
  induction l with
  | nil => simp at hx
  | cons a t ih =>
    rcases List.pairwise_cons.mp h with ⟨ha, ht⟩
    cases t with
    | nil =>
      rcases List.mem_cons.mp hx with rfl | hxt
      · simp
      · simp at hxt
    | cons b t' =>
      have hgd : (a :: b :: t').getD ((a :: b :: t').length - 1) 0 =
          (b :: t').getD ((b :: t').length - 1) 0 := by
        simp
      rw [hgd]
      rcases List.mem_cons.mp hx with rfl | hxt
      · have hmem : (b :: t').getD ((b :: t').length - 1) 0 ∈ (b :: t') := by
          rw [getD_eq_getElem _ _ (by simp)]
          exact List.getElem_mem _
        exact le_of_lt (ha _ hmem)
      · exact ih ht hxt

theorem makeBins_quantile_eq (y : List ℚ) (n : ℕ) :
    makeBins y "quantile" n none =
      some (y.map (qcutCode (dedupSorted (quantileEdges y n))),
        dedupSorted (quantileEdges y n),
        fmtLabels (dedupSorted (quantileEdges y n))) := by
  simp only [makeBins]
  rw [if_neg (by decide)]

/-- Claim C3: in quantile mode `make_bins` returns as many labels as realized
intervals (`len(edges) - 1`), which is at most the requested `n_classes`; for
a strictly increasing non-degenerate target with `n_classes = 5` the realized
class count is exactly 5, every returned class code lies in `[0, 4]`, and
interval `i` renders as `"[a, b)"` — the final interval as `"[a, b]"` — with
the boundaries formatted to one fixed decimal. -/
theorem claim3_quantile_bins :
    (∀ (y : List ℚ) (n : ℕ), y ≠ [] →
      ∀ codes edges labels, makeBins y "quantile" n none = some (codes, edges, labels) →
        labels.length = edges.length - 1 ∧ edges.length - 1 ≤ n) ∧
    (∀ y : List ℚ, y.Pairwise (· < ·) → 2 ≤ y.length →
      ∀ codes edges labels, makeBins y "quantile" 5 none = some (codes, edges, labels) →
        edges.length - 1 = 5 ∧
        (∀ c ∈ codes, 0 ≤ c ∧ c ≤ 4) ∧
        labels.length = 5 ∧
        (∀ i : ℕ, i < 5 →
          labels.getD i "" =
            "[" ++ fmt1 (edges.getD i 0) ++ ", " ++ fmt1 (edges.getD (i + 1) 0) ++
              (if i < 4 then ")" else "]"))) := by
  constructor
  · intro y n hy codes edges labels hmk
    rw [makeBins_quantile_eq] at hmk
    simp only [Option.some.injEq, Prod.mk.injEq] at hmk
    obtain ⟨rfl, rfl, rfl⟩ := hmk
    constructor
    · simp [fmtLabels]
    · have h1 : (quantileEdges y n).length = n + 1 := by
        simp only [quantileEdges]
        rw [List.length_map, List.length_range]
      have h2 := dedupSorted_length_le (quantileEdges y n)
      omega
  · intro y hpw hy2 codes edges labels hmk
    have hynil : y ≠ [] := by
      intro hcon; rw [hcon] at hy2; simp at hy2
    have hsort : y.insertionSort (· ≤ ·) = y :=
      List.Sorted.insertionSort_eq (hpw.imp le_of_lt)
    have hL1 : (1 : ℚ) ≤ (y.length : ℚ) - 1 := by
      have h0 : (2 : ℚ) ≤ (y.length : ℚ) := by exact_mod_cast hy2
      linarith
    have hraw : quantileEdges y 5 =
        (List.range 6).map
          (fun j : ℕ => quantileAt y ((j : ℚ) * ((y.length : ℚ) - 1) / 5)) := by
      simp only [quantileEdges, hsort, Nat.cast_ofNat,
        show (5 : ℕ) + 1 = 6 from rfl]
    have hrawpw : (quantileEdges y 5).Pairwise (· < ·) := by
      rw [hraw, List.pairwise_iff_getElem]
      intro i j hi hj hij
      simp only [List.length_map, List.length_range] at hi hj
      simp only [List.getElem_map, List.getElem_range]
      apply quantileAt_strictMono hpw
      · exact div_nonneg (mul_nonneg (Nat.cast_nonneg i) (by linarith)) (by norm_num)
      · have hij' : (i : ℚ) < (j : ℚ) := by exact_mod_cast hij
        have hpos : (0 : ℚ) < ((y.length : ℚ) - 1) / 5 := by linarith
        calc (i : ℚ) * ((y.length : ℚ) - 1) / 5
            = (i : ℚ) * (((y.length : ℚ) - 1) / 5) := by ring
          _ < (j : ℚ) * (((y.length : ℚ) - 1) / 5) :=
            mul_lt_mul_of_pos_right hij' hpos
          _ = (j : ℚ) * ((y.length : ℚ) - 1) / 5 := by ring
      · have hj5 : (j : ℚ) ≤ 5 := by exact_mod_cast (by omega : j ≤ 5)
        rw [div_le_iff₀ (by norm_num)]
        nlinarith
    have hded : dedupSorted (quantileEdges y 5) = quantileEdges y 5 :=
      dedupSorted_eq_self hrawpw
    rw [makeBins_quantile_eq, hded] at hmk
    simp only [Option.some.injEq, Prod.mk.injEq] at hmk
    obtain ⟨rfl, rfl, rfl⟩ := hmk
    have hE6 : (quantileEdges y 5).length = 6 := by
      rw [hraw, List.length_map, List.length_range]
    have hhead : (quantileEdges y 5).getD 0 0 = y.getD 0 0 := by
      rw [hraw, getD_eq_getElem _ 0 (by simp)]
      simp only [List.getElem_map, List.getElem_range]
      rw [show ((0 : ℕ) : ℚ) * ((y.length : ℚ) - 1) / 5 = 0 by norm_num]
      exact quantileAt_zero hynil
    have hlast : (quantileEdges y 5).getD 5 0 = y.getD (y.length - 1) 0 := by
      rw [hraw, getD_eq_getElem _ 5 (by simp)]
      simp only [List.getElem_map, List.getElem_range]
      rw [show ((5 : ℕ) : ℚ) * ((y.length : ℚ) - 1) / 5 = (y.length : ℚ) - 1 by
        push_cast
        ring]
      exact quantileAt_top hynil
    refine ⟨by omega, ?_, ?_, ?_⟩
    · intro c hc
      rcases List.mem_map.mp hc with ⟨x, hxy, rfl⟩
      by_cases hxh : (quantileEdges y 5).head? = some x
      · have hval : qcutCode (quantileEdges y 5) x = 0 := by
          show (↑(if (quantileEdges y 5).head? = some x then 1
            else (quantileEdges y 5).countP (fun b => decide (b < x))) : ℤ) - 1 = 0
          rw [if_pos hxh]
          norm_num
        rw [hval]
        exact ⟨le_refl 0, by norm_num⟩
      · have hhd : (quantileEdges y 5).head? =
            some ((quantileEdges y 5).getD 0 0) := by
          rw [List.head?_eq_getElem?, List.getElem?_eq_getElem (by omega),
            getD_eq_getElem _ 0 (by omega)]
        have hhv : (quantileEdges y 5).getD 0 0 ≤ x := by
          rw [hhead]; exact sorted_head_le hpw hxy
        have hhne : (quantileEdges y 5).getD 0 0 ≠ x := by
          intro hcon
          exact hxh (by rw [hhd, hcon])
        have hlt0 : (quantileEdges y 5).getD 0 0 < x := lt_of_le_of_ne hhv hhne
        have hcp1 : 0 < (quantileEdges y 5).countP (fun b => decide (b < x)) := by
          rw [List.countP_pos_iff]
          refine ⟨(quantileEdges y 5).getD 0 0, ?_, by simpa using hlt0⟩
          rw [getD_eq_getElem _ 0 (by omega)]
          exact List.getElem_mem _
        have hle6 : (quantileEdges y 5).countP (fun b => decide (b < x)) ≤
            (quantileEdges y 5).length := List.countP_le_length _
        have hcp2 : (quantileEdges y 5).countP (fun b => decide (b < x)) < 6 := by
          rcases lt_or_eq_of_le hle6 with hl | he
          · omega
          · exfalso
            have hall := List.countP_eq_length.mp he
            have hx5 : x ≤ (quantileEdges y 5).getD 5 0 := by
              rw [hlast]; exact sorted_le_getLast hpw hxy
            have hmem5 : (quantileEdges y 5).getD 5 0 ∈ quantileEdges y 5 := by
              rw [getD_eq_getElem _ 5 (by omega)]
              exact List.getElem_mem _
            have hcontra := hall _ hmem5
            simp only [decide_eq_true_eq] at hcontra
            linarith
        have hq : qcutCode (quantileEdges y 5) x =
            (↑((quantileEdges y 5).countP (fun b => decide (b < x))) : ℤ) - 1 := by
          show (↑(if (quantileEdges y 5).head? = some x then 1
            else (quantileEdges y 5).countP (fun b => decide (b < x))) : ℤ) - 1 = _
          rw [if_neg hxh]
        rw [hq]
        omega
    · simp [fmtLabels, hE6]
    · intro i hi
      show (fmtLabels (quantileEdges y 5)).getD i "" = _
      simp only [fmtLabels, hE6]
      rw [getD_eq_getElem _ i (by simp; omega)]
      simp only [List.getElem_map, List.getElem_range]

/-- Witness for `claim3_quantile_bins` on the strictly increasing target
sample `[1, 2]`: five realized classes with edges `[1, 1.2, 1.4, 1.6, 1.8, 2]`. -/
theorem claim3_witness :
    (([1, 2] : List ℚ).Pairwise (· < ·) ∧ 2 ≤ ([1, 2] : List ℚ).length ∧
      makeBins [1, 2] "quantile" 5 none =
        some ([0, 4], [1, 6/5, 7/5, 8/5, 9/5, 2],
          ["[1.0, 1.2)", "[1.2, 1.4)", "[1.4, 1.6)", "[1.6, 1.8)", "[1.8, 2.0]"])) ∧
    (([1, 6/5, 7/5, 8/5, 9/5, 2] : List ℚ).length - 1 = 5 ∧
      (∀ c ∈ ([0, 4] : List ℤ), 0 ≤ c ∧ c ≤ 4) ∧
      (["[1.0, 1.2)", "[1.2, 1.4)", "[1.4, 1.6)", "[1.6, 1.8)", "[1.8, 2.0]"]
          : List String).length = 5 ∧
      (∀ i : ℕ, i < 5 →
        (["[1.0, 1.2)", "[1.2, 1.4)", "[1.4, 1.6)", "[1.6, 1.8)", "[1.8, 2.0]"]
            : List String).getD i "" =
          "[" ++ fmt1 (([1, 6/5, 7/5, 8/5, 9/5, 2] : List ℚ).getD i 0) ++ ", " ++
            fmt1 (([1, 6/5, 7/5, 8/5, 9/5, 2] : List ℚ).getD (i + 1) 0) ++
            (if i < 4 then ")" else "]"))) := by
  have h1 : ([1, 2] : List ℚ).Pairwise (· < ·) := by with_unfolding_all decide
  have h2 : 2 ≤ ([1, 2] : List ℚ).length := by norm_num
  have h3 : makeBins [1, 2] "quantile" 5 none =
      some ([0, 4], [1, 6/5, 7/5, 8/5, 9/5, 2],
        ["[1.0, 1.2)", "[1.2, 1.4)", "[1.4, 1.6)", "[1.6, 1.8)", "[1.8, 2.0]"]) := by
    with_unfolding_all decide
  exact ⟨⟨h1, h2, h3⟩, claim3_quantile_bins.2 [1, 2] h1 h2 _ _ _ h3⟩

end MovieModel
